import Mathlib

/-!
Verification of the Kobuta schema parser and scalar codec.

We shallowly embed the Rust sources (`src/lib.rs`, `src/schema.rs`,
`src/bin/parse_csv.rs`) into Lean. Strings are modelled as `List Char`
(every operation the source performs on `&str` — `starts_with`,
slicing at a literal's length, `trim`, `trim_left`, first-byte
comparison with the one-byte separator `,` — acts on character
boundaries, so the char-level model is exact, including the
`as_bytes()[0]` check: a multi-byte first character has a first byte
≥ 0x80 ≠ b',' and the model compares the first char with ','
equivalently).
-/

namespace Kobuta

/-- The opaque error type of the crate (`struct KbtError;` in `lib.rs`). -/
inductive KbtError where
  | mk
deriving DecidableEq, Repr

/-- `char::is_whitespace`: the Unicode White_Space property, used by
Rust's `str::trim` / `str::trim_left`. -/
def isRustWs (c : Char) : Bool :=
  c.val = 0x0009 || c.val = 0x000A || c.val = 0x000B || c.val = 0x000C ||
  c.val = 0x000D || c.val = 0x0020 || c.val = 0x0085 || c.val = 0x00A0 ||
  c.val = 0x1680 || c.val = 0x2000 || c.val = 0x2001 || c.val = 0x2002 ||
  c.val = 0x2003 || c.val = 0x2004 || c.val = 0x2005 || c.val = 0x2006 ||
  c.val = 0x2007 || c.val = 0x2008 || c.val = 0x2009 || c.val = 0x200A ||
  c.val = 0x2028 || c.val = 0x2029 || c.val = 0x202F || c.val = 0x205F ||
  c.val = 0x3000

/-- `str::trim_left`: drop the maximal whitespace prefix. -/
def trimLeft (s : List Char) : List Char := s.dropWhile isRustWs

/-- Drop the maximal whitespace suffix. -/
def trimRight (s : List Char) : List Char := (s.reverse.dropWhile isRustWs).reverse

/-- `str::trim`: drop whitespace on both ends. -/
def trim (s : List Char) : List Char := trimRight (trimLeft s)

/-- `enum DataType { Float32, Int32 }`. -/
inductive DataType where
  | float32
  | int32
deriving DecidableEq, Repr

/-- `struct Column { dtype: DataType, nullable: bool }`. -/
structure Column where
  dtype : DataType
  nullable : Bool
deriving DecidableEq, Repr

/-- `literals::FLOAT32 = "Float32"`. -/
def float32Lit : List Char := ['F', 'l', 'o', 'a', 't', '3', '2']

/-- `literals::INT32 = "Int32"`. -/
def int32Lit : List Char := ['I', 'n', 't', '3', '2']

/-- `literals::NULLABLE = "Nullable"`. -/
def nullableLit : List Char := ['N', 'u', 'l', 'l', 'a', 'b', 'l', 'e']

/-- `Column::parse_single_datatype`: if the input starts with the
literal, return the datatype and the rest of the input with leading
whitespace trimmed. -/
def parse_single_datatype (s : List Char) (lit : List Char) (dt : DataType) :
    Option (DataType × List Char) :=
  if s.take lit.length = lit then some (dt, trimLeft (s.drop lit.length)) else none

/-- `Column::parse_datatype`: try the literals of `LIT_TYPES` in order
(`Float32` first, then `Int32`) and take the first match. -/
def parse_datatype (s : List Char) : Except KbtError (DataType × List Char) :=
  match parse_single_datatype s float32Lit .float32 with
  | some r => .ok r
  | none =>
    match parse_single_datatype s int32Lit .int32 with
    | some r => .ok r
    | none => .error .mk

/-- `Column::parse_nullable`: consume an optional `Nullable` literal,
trimming leading whitespace from the leftover either way. -/
def parse_nullable (s : List Char) : Bool × List Char :=
  if s.take nullableLit.length = nullableLit then
    (true, trimLeft (s.drop nullableLit.length))
  else
    (false, trimLeft s)

/-- `Column::parse`: a datatype followed by an optional `Nullable`. -/
def columnParse (s : List Char) : Except KbtError (Column × List Char) :=
  match parse_datatype s with
  | .error e => .error e
  | .ok (dtype, leftover) =>
    match parse_nullable leftover with
    | (nullable, rest) => .ok (⟨dtype, nullable⟩, rest)

/-- Result of `parse_separator`, with an explicit constructor for the
potential panic of `string.as_bytes()[0]` on an empty slice. -/
inductive SepRes where
  | ok (rest : List Char)
  | err
  | panicked
deriving DecidableEq, Repr

/-- `parse_separator`: requires the very first byte to be `,`
(indexing `as_bytes()[0]` panics on empty input), then trims leading
whitespace from the rest. -/
def parse_separator (s : List Char) : SepRes :=
  match s with
  | [] => .panicked
  | c :: rest => if c = ',' then .ok (trimLeft rest) else .err

/-- Result of the schema-level `parse`. `panicked` models an
out-of-bounds slice index; `fuelOut` models non-termination of the
parse loop (the fuel given in `schemaParse` is shown sufficient). -/
inductive PRes where
  | ok (cols : List Column)
  | err
  | panicked
  | fuelOut
deriving DecidableEq, Repr

/-- The `loop` in `schema::parse`: parse a column, stop if the
leftover is empty, otherwise require a separator and continue. The
`fuel` argument bounds the number of iterations. -/
def parseLoopF : Nat → List Char → PRes
  | 0, _ => .fuelOut
  | fuel + 1, s =>
    match columnParse s with
    | .error _ => .err
    | .ok (col, rest) =>
      if rest.isEmpty then .ok [col]
      else
        match parse_separator rest with
        | .panicked => .panicked
        | .err => .err
        | .ok rest2 =>
          match parseLoopF fuel rest2 with
          | .ok cols => .ok (col :: cols)
          | r => r

/-- `schema::parse`: trim the whole input, then run the parse loop.
One character is consumed per column at the very least, so
`length + 1` units of fuel suffice (proved below). -/
def schemaParse (s : List Char) : PRes :=
  parseLoopF ((trim s).length + 1) (trim s)

/-- A string made of whitespace only. -/
def wsOnly (w : List Char) : Prop := ∀ c ∈ w, isRustWs c = true

instance (w : List Char) : Decidable (wsOnly w) := by
  unfold wsOnly
  infer_instance

theorem trimLeft_append_ws {w : List Char} (s : List Char) (hw : wsOnly w) :
    trimLeft (w ++ s) = trimLeft s := by
  induction w with
  | nil => rfl
  | cons c t ih =>
    have hc : isRustWs c = true := hw c (List.mem_cons_self c t)
    have ht : wsOnly t := fun x hx => hw x (List.mem_cons_of_mem c hx)
    simp only [List.cons_append, trimLeft, List.dropWhile_cons, hc, if_true]
    exact ih ht

theorem trimLeft_cons_not {c : Char} (s : List Char) (hc : isRustWs c = false) :
    trimLeft (c :: s) = c :: s := by
  simp [trimLeft, List.dropWhile_cons, hc]

theorem trimLeft_eq_nil {s : List Char} (hs : wsOnly s) : trimLeft s = [] := by
  have := trimLeft_append_ws [] hs
  simpa using this

theorem wsOnly_of_trimLeft_eq_nil {s : List Char} (h : trimLeft s = []) : wsOnly s := by
  induction s with
  | nil => intro c hc; cases hc
  | cons c t ih =>
    by_cases hc : isRustWs c = true
    · intro x hx
      rcases List.mem_cons.mp hx with rfl | hx
      · exact hc
      · have h' : trimLeft t = [] := by
          simpa [trimLeft, List.dropWhile_cons, hc] using h
        exact ih h' x hx
    · exfalso
      simp only [Bool.not_eq_true] at hc
      rw [trimLeft_cons_not t hc] at h
      cases h

theorem trimLeft_idem (s : List Char) : trimLeft (trimLeft s) = trimLeft s := by
  induction s with
  | nil => rfl
  | cons c t ih =>
    by_cases hc : isRustWs c = true
    · simpa [trimLeft, List.dropWhile_cons, hc] using ih
    · simp only [Bool.not_eq_true] at hc
      rw [trimLeft_cons_not t hc, trimLeft_cons_not t hc]

theorem trimRight_append_ws {v : List Char} (s : List Char) (hv : wsOnly v) :
    trimRight (s ++ v) = trimRight s := by
  have hv' : wsOnly v.reverse := fun c hc => hv c (List.mem_reverse.mp hc)
  simp only [trimRight, List.reverse_append]
  rw [show v.reverse ++ s.reverse = v.reverse ++ s.reverse from rfl,
    show (v.reverse ++ s.reverse).dropWhile isRustWs = trimLeft (v.reverse ++ s.reverse) from rfl,
    trimLeft_append_ws s.reverse hv']
  rfl

theorem trimLeft_append_of_ne_nil {s : List Char} (v : List Char) (h : trimLeft s ≠ []) :
    trimLeft (s ++ v) = trimLeft s ++ v := by
  induction s with
  | nil => exact absurd rfl h
  | cons c t ih =>
    by_cases hc : isRustWs c = true
    · have h' : trimLeft t ≠ [] := by
        simpa [trimLeft, List.dropWhile_cons, hc] using h
      simpa [trimLeft, List.dropWhile_cons, hc] using ih h'
    · simp only [Bool.not_eq_true] at hc
      rw [List.cons_append, trimLeft_cons_not (t ++ v) hc, trimLeft_cons_not t hc,
        List.cons_append]

theorem trim_ws_invariant {u v : List Char} (s : List Char) (hu : wsOnly u) (hv : wsOnly v) :
    trim (u ++ s ++ v) = trim s := by
  unfold trim
  rw [List.append_assoc, trimLeft_append_ws (s ++ v) hu]
  by_cases h : trimLeft s = []
  · have hws : wsOnly s := wsOnly_of_trimLeft_eq_nil h
    have : trimLeft (s ++ v) = [] := by
      rw [trimLeft_append_ws v hws]; exact trimLeft_eq_nil hv
    rw [this, h]
  · rw [trimLeft_append_of_ne_nil v h, trimRight_append_ws (trimLeft s) hv]

theorem trimRight_eq_self_of_ends {s : List Char} {c : Char} {t : List Char}
    (h : s.reverse = c :: t) (hc : isRustWs c = false) : trimRight s = s := by
  rw [trimRight, h, List.dropWhile_cons, hc]
  simp only [Bool.false_eq_true, if_false]
  rw [← h, List.reverse_reverse]

theorem trimLeft_length_le (s : List Char) : (trimLeft s).length ≤ s.length := by
  induction s with
  | nil => exact Nat.le_refl 0
  | cons c t ih =>
    by_cases hc : isRustWs c = true
    · simp only [trimLeft, List.dropWhile_cons, hc, if_true]
      exact Nat.le_trans ih (Nat.le_succ _)
    · simp only [Bool.not_eq_true] at hc
      rw [trimLeft_cons_not t hc]

theorem parse_single_datatype_consumes {s lit : List Char} {dt d : DataType} {r : List Char}
    (h : parse_single_datatype s lit dt = some (d, r)) :
    r.length + lit.length ≤ s.length := by
  unfold parse_single_datatype at h
  by_cases htake : s.take lit.length = lit
  · simp only [htake, if_true, Option.some.injEq, Prod.mk.injEq] at h
    have hlen : lit.length ≤ s.length := by
      have := congrArg List.length htake
      simp only [List.length_take] at this
      omega
    have hr : r.length ≤ (s.drop lit.length).length := by
      rw [← h.2]; exact trimLeft_length_le _
    simp only [List.length_drop] at hr
    omega
  · simp [htake] at h

theorem parse_nullable_le (s : List Char) : (parse_nullable s).2.length ≤ s.length := by
  unfold parse_nullable
  by_cases htake : s.take nullableLit.length = nullableLit
  · simp only [htake, if_true]
    calc (trimLeft (s.drop nullableLit.length)).length
        ≤ (s.drop nullableLit.length).length := trimLeft_length_le _
      _ ≤ s.length := by simp [List.length_drop]
  · simp only [htake, if_false]
    exact trimLeft_length_le s

theorem columnParse_consumes {s : List Char} {col : Column} {rest : List Char}
    (h : columnParse s = .ok (col, rest)) : rest.length < s.length := by
  unfold columnParse at h
  cases hdt : parse_datatype s with
  | error e => rw [hdt] at h; cases h
  | ok p =>
    obtain ⟨dt, leftover⟩ := p
    rw [hdt] at h
    simp only [Except.ok.injEq, Prod.mk.injEq] at h
    have hrest : rest.length ≤ leftover.length := by
      rw [← h.2]; exact parse_nullable_le leftover
    have hleft : leftover.length + 5 ≤ s.length := by
      unfold parse_datatype at hdt
      cases hf : parse_single_datatype s float32Lit .float32 with
      | some r =>
        rw [hf] at hdt
        simp only [Except.ok.injEq] at hdt
        obtain ⟨d', r'⟩ := r
        cases hdt
        have := parse_single_datatype_consumes hf
        simp only [float32Lit, List.length_cons, List.length_nil] at this
        omega
      | none =>
        rw [hf] at hdt
        cases hi : parse_single_datatype s int32Lit .int32 with
        | some r =>
          rw [hi] at hdt
          simp only [Except.ok.injEq] at hdt
          obtain ⟨d', r'⟩ := r
          cases hdt
          have := parse_single_datatype_consumes hi
          simp only [int32Lit, List.length_cons, List.length_nil] at this
          omega
        | none => rw [hi] at hdt; cases hdt
    omega

theorem parse_separator_consumes {s rest2 : List Char}
    (h : parse_separator s = .ok rest2) : rest2.length < s.length := by
  unfold parse_separator at h
  cases s with
  | nil => cases h
  | cons c r =>
    by_cases hc : c = ','
    · simp only [hc, if_true, SepRes.ok.injEq] at h
      subst h
      have := trimLeft_length_le r
      simp only [List.length_cons]
      omega
    · simp [hc] at h

/-- With fuel exceeding the input length, the parse loop neither
panics nor exhausts its fuel. -/
theorem parseLoopF_total : ∀ (fuel : Nat) (s : List Char), s.length < fuel →
    (∃ cols, parseLoopF fuel s = .ok cols) ∨ parseLoopF fuel s = .err := by
  intro fuel
  induction fuel with
  | zero => intro s hs; omega
  | succ n ih =>
    intro s hs
    cases hcp : columnParse s with
    | error e => right; simp [parseLoopF, hcp]
    | ok p =>
      obtain ⟨col, rest⟩ := p
      cases rest with
      | nil => left; exact ⟨[col], by simp [parseLoopF, hcp]⟩
      | cons c r =>
        by_cases hc : c = ','
        · have hsep : parse_separator (c :: r) = .ok (trimLeft r) := by
            simp [parse_separator, hc]
          have hlen : (trimLeft r).length < n := by
            have h1 : (c :: r).length < s.length := columnParse_consumes hcp
            have h2 := trimLeft_length_le r
            simp only [List.length_cons] at h1
            omega
          rcases ih (trimLeft r) hlen with ⟨cols, hok⟩ | herr
          · left; exact ⟨col :: cols, by simp [parseLoopF, hcp, hsep, hok]⟩
          · right; simp [parseLoopF, hcp, hsep, herr]
        · have hsep : parse_separator (c :: r) = .err := by
            simp [parse_separator, hc]
          right; simp [parseLoopF, hcp, hsep]

theorem parseLoopF_ok_ne_nil {fuel : Nat} {s : List Char} {cols : List Column}
    (h : parseLoopF fuel s = .ok cols) : cols ≠ [] := by
  cases fuel with
  | zero => cases h
  | succ n =>
    unfold parseLoopF at h
    repeat' split at h
    all_goals try cases h
    all_goals try simp
    all_goals simp_all

/-- C2: `schema::parse` returns an error (`KbtError`) on each of the five
invalid inputs: a double comma, an unknown type literal, a lowercase
`nullable`, a missing comma, and a trailing comma. -/
theorem claim_C2 :
    schemaParse "Float32 Nullable, Int32,, Float32".toList = .err ∧
    schemaParse "Float33".toList = .err ∧
    schemaParse "Float32 nullable".toList = .err ∧
    schemaParse "Float32 Int32".toList = .err ∧
    schemaParse "Float32,".toList = .err := by
  refine ⟨?_, ?_, ?_, ?_, ?_⟩ <;> decide

/-- C7: whenever `schema::parse` succeeds the column list is non-empty, and
a wholly empty or whitespace-only schema string is rejected with an error
(the first column parse fails on empty input). -/
theorem claim_C7 :
    (∀ (s : List Char) (cols : List Column), schemaParse s = .ok cols → cols ≠ []) ∧
    (∀ s : List Char, wsOnly s → schemaParse s = .err) := by
  constructor
  · intro s cols h
    exact parseLoopF_ok_ne_nil h
  · intro s hws
    have htrim : trim s = [] := by
      unfold trim
      rw [trimLeft_eq_nil hws]
      rfl
    unfold schemaParse
    rw [htrim]
    decide

theorem claim_C7_witness :
    ([⟨DataType.float32, false⟩] ≠ ([] : List Column)) ∧
    schemaParse "   ".toList = .err :=
  ⟨claim_C7.1 "Float32".toList [⟨DataType.float32, false⟩] (by decide),
   claim_C7.2 "   ".toList (by decide)⟩

/-- C8: `schema::parse` is deterministic — parsing the same schema string
twice yields structurally equal results (the embedding is a pure function
of the input, as is the Rust source, which reads no mutable or global
state). -/
theorem claim_C8 : ∀ s t : List Char, s = t → schemaParse s = schemaParse t := by
  intro s t h
  rw [h]

theorem claim_C8_witness :
    schemaParse "Float32 Nullable".toList = schemaParse "Float32 Nullable".toList :=
  claim_C8 "Float32 Nullable".toList "Float32 Nullable".toList rfl

/-- C9: for every input string, `schema::parse` terminates and returns
either `Ok` or `Err`: it never panics (the byte indexing in
`parse_separator` is guarded by the emptiness check in the loop, and
every slice follows a successful `starts_with`), and the loop consumes at
least one character per iteration, so the `length + 1` fuel of the
embedding never runs out. -/
theorem claim_C9 : ∀ s : List Char,
    (∃ cols, schemaParse s = .ok cols) ∨ schemaParse s = .err := by
  intro s
  exact parseLoopF_total ((trim s).length + 1) (trim s) (Nat.lt_succ_self _)

/-- C10: no whitespace is required between a type literal and `Nullable`:
`schema::parse "Float32Nullable"` succeeds with a single nullable Float32
column, because only optional leading whitespace is trimmed after the
type literal before the `Nullable` prefix check. -/
theorem claim_C10 : schemaParse "Float32Nullable".toList = .ok [⟨.float32, true⟩] := by
  decide

/-! ## Valid schema strings built from the grammar

A valid schema string is a sequence of columns joined by `,`, with
whitespace at the grammar's trim points: before each column (leading
whitespace of the whole string, or the trim after each separator),
after a type literal, and after `Nullable`. `ColItem` packages one
column together with the whitespace choices around its tokens, and
`bodyText`/`tailText` render the schema string. -/

/-- One column of a schema string: the whitespace before its type
literal (`lead`), the column itself, the whitespace after the type
literal (`wa`) and after `Nullable` (`wb`, used only when nullable). -/
structure ColItem where
  lead : List Char
  col : Column
  wa : List Char
  wb : List Char

/-- The literal of a datatype, per `LIT_TYPES`. -/
def litOf : DataType → List Char
  | .float32 => float32Lit
  | .int32 => int32Lit

/-- The text of one column: type literal, whitespace, optional
`Nullable` with trailing whitespace. -/
def bodyText (it : ColItem) : List Char :=
  litOf it.col.dtype ++ it.wa ++ (if it.col.nullable then nullableLit ++ it.wb else [])

/-- The text after the first column: for each further column a
separator, the column's leading whitespace and its body. -/
def tailText : List ColItem → List Char
  | [] => []
  | it :: rest => ',' :: (it.lead ++ bodyText it ++ tailText rest)

/-- All whitespace slots of a `ColItem` hold only whitespace. -/
def okWs (it : ColItem) : Prop := wsOnly it.lead ∧ wsOnly it.wa ∧ wsOnly it.wb

instance (it : ColItem) : Decidable (okWs it) := by
  unfold okWs
  infer_instance

theorem trimLeft_bodyText (it : ColItem) (Y : List Char) :
    trimLeft (bodyText it ++ Y) = bodyText it ++ Y := by
  cases hdt : it.col.dtype with
  | float32 =>
    rw [bodyText, hdt]
    show trimLeft ((float32Lit ++ _ ++ _) ++ Y) = _
    simp only [litOf, float32Lit, List.cons_append, List.append_assoc]
    exact trimLeft_cons_not _ (by decide)
  | int32 =>
    rw [bodyText, hdt]
    show trimLeft ((int32Lit ++ _ ++ _) ++ Y) = _
    simp only [litOf, int32Lit, List.cons_append, List.append_assoc]
    exact trimLeft_cons_not _ (by decide)

theorem int32_take_ne_float32 (X : List Char) :
    (int32Lit ++ X).take float32Lit.length ≠ float32Lit := by
  intro h
  simp only [int32Lit, float32Lit, List.length_cons, List.length_nil, List.cons_append,
    List.take_succ_cons, List.cons.injEq] at h
  exact absurd h.1 (by decide)

theorem parse_single_self (lit X : List Char) (dt : DataType) :
    parse_single_datatype (lit ++ X) lit dt = some (dt, trimLeft X) := by
  unfold parse_single_datatype
  rw [List.take_left, if_pos rfl, List.drop_left]

theorem parse_datatype_float32 (X : List Char) :
    parse_datatype (float32Lit ++ X) = .ok (.float32, trimLeft X) := by
  unfold parse_datatype
  rw [parse_single_self]

theorem parse_datatype_int32 (X : List Char) :
    parse_datatype (int32Lit ++ X) = .ok (.int32, trimLeft X) := by
  have h1 : parse_single_datatype (int32Lit ++ X) float32Lit .float32 = none := by
    unfold parse_single_datatype
    rw [if_neg (int32_take_ne_float32 X)]
  unfold parse_datatype
  rw [h1, parse_single_self]

theorem litOf_parse_datatype (dt : DataType) (X : List Char) :
    parse_datatype (litOf dt ++ X) = .ok (dt, trimLeft X) := by
  cases dt with
  | float32 => exact parse_datatype_float32 X
  | int32 => exact parse_datatype_int32 X

theorem parse_nullable_self (Y : List Char) :
    parse_nullable (nullableLit ++ Y) = (true, trimLeft Y) := by
  unfold parse_nullable
  rw [List.take_left, if_pos rfl, List.drop_left]

theorem parse_nullable_not {s : List Char} (h : s.take nullableLit.length ≠ nullableLit) :
    parse_nullable s = (false, trimLeft s) := by
  unfold parse_nullable
  rw [if_neg h]

/-- Parsing one rendered column: `Column::parse` consumes exactly the
body and returns the column, leaving the trimmed remainder, provided
the remainder is either all whitespace or starts with the separator. -/
theorem columnParse_body (it : ColItem) (R : List Char) (hws : okWs it)
    (hR : wsOnly R ∨ ∃ t, R = ',' :: t) :
    columnParse (bodyText it ++ R) = .ok (it.col, trimLeft R) := by
  obtain ⟨hlead, hwa, hwb⟩ := hws
  have hRnotNul : (trimLeft R).take nullableLit.length ≠ nullableLit := by
    rcases hR with hR | ⟨t, rfl⟩
    · rw [trimLeft_eq_nil hR]
      intro h
      exact absurd h (by decide)
    · rw [trimLeft_cons_not t (by decide)]
      intro h
      simp only [nullableLit, List.length_cons, List.length_nil, List.take_succ_cons,
        List.cons.injEq] at h
      exact absurd h.1 (by decide)
  obtain ⟨lead, col, wa, wb⟩ := it
  obtain ⟨dtype, nullable⟩ := col
  simp only [okWs] at hwa hwb hlead
  cases nullable with
  | false =>
    show columnParse ((litOf dtype ++ wa ++ []) ++ R) = _
    simp only [List.append_nil, List.append_assoc]
    unfold columnParse
    rw [litOf_parse_datatype dtype (wa ++ R), trimLeft_append_ws R hwa]
    dsimp only
    rw [parse_nullable_not hRnotNul, trimLeft_idem]
  | true =>
    show columnParse ((litOf dtype ++ wa ++ (nullableLit ++ wb)) ++ R) = _
    simp only [List.append_assoc]
    unfold columnParse
    rw [litOf_parse_datatype dtype (wa ++ (nullableLit ++ (wb ++ R))),
      trimLeft_append_ws _ hwa]
    have hnul : trimLeft (nullableLit ++ (wb ++ R)) = nullableLit ++ (wb ++ R) :=
      trimLeft_cons_not _ (by decide)
    rw [hnul]
    dsimp only
    rw [parse_nullable_self, trimLeft_append_ws R hwb]

/-- The parse loop on a rendered schema string (first column body,
then the separated tail, then trailing whitespace) succeeds and
returns exactly the rendered columns. -/
theorem parseLoopF_gen : ∀ (items : List ColItem) (fuel : Nat) (it : ColItem) (v : List Char),
    okWs it → (∀ x ∈ items, okWs x) → wsOnly v →
    (bodyText it ++ tailText items ++ v).length < fuel →
    parseLoopF fuel (bodyText it ++ tailText items ++ v) =
      .ok (it.col :: items.map ColItem.col) := by
  intro items
  induction items with
  | nil =>
    intro fuel it v hit _ hv hfuel
    cases fuel with
    | zero => omega
    | succ n =>
      have hcp : columnParse (bodyText it ++ (tailText [] ++ v)) = .ok (it.col, trimLeft v) :=
        columnParse_body it v hit (Or.inl hv)
      have hnil : trimLeft v = [] := trimLeft_eq_nil hv
      have hcp' : columnParse (bodyText it ++ v) = .ok (it.col, []) := by
        rw [← hnil]
        simpa [tailText] using hcp
      rw [List.append_assoc]
      simp [parseLoopF, hcp', tailText]
  | cons it2 rest ih =>
    intro fuel it v hit hitems hv hfuel
    cases fuel with
    | zero => omega
    | succ n =>
      have hR : tailText (it2 :: rest) ++ v =
          ',' :: (it2.lead ++ (bodyText it2 ++ (tailText rest ++ v))) := by
        simp [tailText, List.append_assoc]
      have hcp : columnParse (bodyText it ++ (tailText (it2 :: rest) ++ v)) =
          .ok (it.col, trimLeft (tailText (it2 :: rest) ++ v)) :=
        columnParse_body it _ hit (Or.inr ⟨_, hR⟩)
      have htl : trimLeft (tailText (it2 :: rest) ++ v) = tailText (it2 :: rest) ++ v := by
        rw [hR]
        exact trimLeft_cons_not _ (by decide)
      rw [htl] at hcp
      have hsep : parse_separator (tailText (it2 :: rest) ++ v) =
          .ok (bodyText it2 ++ (tailText rest ++ v)) := by
        rw [hR]
        show (if ',' = ',' then
          SepRes.ok (trimLeft (it2.lead ++ (bodyText it2 ++ (tailText rest ++ v)))) else .err) = _
        rw [if_pos rfl, trimLeft_append_ws _ (hitems it2 (List.mem_cons_self it2 rest)).1,
          trimLeft_bodyText]
      have hrest : (∀ x ∈ rest, okWs x) :=
        fun x hx => hitems x (List.mem_cons_of_mem it2 hx)
      have hlen : (bodyText it2 ++ tailText rest ++ v).length < n := by
        have heq := congrArg List.length
          (show bodyText it ++ tailText (it2 :: rest) ++ v =
            bodyText it ++ (',' :: (it2.lead ++ (bodyText it2 ++ (tailText rest ++ v)))) from by
              rw [List.append_assoc, hR])
        simp only [List.length_append, List.length_cons] at heq hfuel ⊢
        omega
      have hrec : parseLoopF n (bodyText it2 ++ (tailText rest ++ v)) =
          .ok (it2.col :: rest.map ColItem.col) := by
        rw [← List.append_assoc]
        exact ih n it2 v (hitems it2 (List.mem_cons_self it2 rest)) hrest hv hlen
      have hne : (tailText (it2 :: rest) ++ v).isEmpty = false := by
        rw [hR]
        rfl
      rw [List.append_assoc]
      simp [parseLoopF, hcp, hne, hsep, hrec]

/-- The first character (if any) is not whitespace. -/
def headNonWsB (l : List Char) : Bool :=
  match l with
  | [] => false
  | c :: _ => !isRustWs c

theorem trimRight_eq_self_of_headNonWsB {s : List Char}
    (h : headNonWsB s.reverse = true) : trimRight s = s := by
  cases hrev : s.reverse with
  | nil => rw [hrev] at h; cases h
  | cons c t =>
    rw [hrev] at h
    simp only [headNonWsB, Bool.not_eq_true'] at h
    exact trimRight_eq_self_of_ends hrev h

theorem headNonWsB_append_rev {X : List Char} (A : List Char)
    (h : headNonWsB X.reverse = true) : headNonWsB ((A ++ X).reverse) = true := by
  cases hrev : X.reverse with
  | nil => rw [hrev] at h; cases h
  | cons c t =>
    rw [hrev] at h
    rw [List.reverse_append, hrev]
    exact h

/-- A rendered schema fragment splits into a whitespace-free-tailed
core and a trailing whitespace run: the core renders the same columns
(only the last column's trailing whitespace slot is emptied). -/
theorem splitTrailing : ∀ (items : List ColItem) (it : ColItem), okWs it →
    (∀ x ∈ items, okWs x) →
    ∃ (it' : ColItem) (items' : List ColItem) (W : List Char),
      it'.col = it.col ∧ items'.map ColItem.col = items.map ColItem.col ∧
      okWs it' ∧ (∀ x ∈ items', okWs x) ∧ wsOnly W ∧
      bodyText it ++ tailText items = (bodyText it' ++ tailText items') ++ W ∧
      headNonWsB (bodyText it' ++ tailText items').reverse = true := by
  intro items
  induction items with
  | nil =>
    intro it hit _
    have hnilws : wsOnly ([] : List Char) := fun c hc => absurd hc (List.not_mem_nil c)
    have hnilitems : ∀ x ∈ ([] : List ColItem), okWs x :=
      fun x hx => absurd hx (List.not_mem_nil x)
    obtain ⟨lead, col, wa, wb⟩ := it
    obtain ⟨dtype, nullable⟩ := col
    obtain ⟨hlead, hwa, hwb⟩ := hit
    cases nullable with
    | false =>
      refine ⟨⟨lead, ⟨dtype, false⟩, [], []⟩, [], wa, rfl, rfl, ⟨hlead, hnilws, hnilws⟩,
        hnilitems, hwa, ?_, ?_⟩
      · show (litOf dtype ++ wa ++ []) ++ [] = ((litOf dtype ++ [] ++ []) ++ []) ++ wa
        simp
      · show headNonWsB ((litOf dtype ++ [] ++ []) ++ []).reverse = true
        cases dtype <;> decide
    | true =>
      refine ⟨⟨lead, ⟨dtype, true⟩, wa, []⟩, [], wb, rfl, rfl, ⟨hlead, hwa, hnilws⟩,
        hnilitems, hwb, ?_, ?_⟩
      · show (litOf dtype ++ wa ++ (nullableLit ++ wb)) ++ [] =
          ((litOf dtype ++ wa ++ (nullableLit ++ [])) ++ []) ++ wb
        simp
      · show headNonWsB ((litOf dtype ++ wa ++ (nullableLit ++ [])) ++ []).reverse = true
        simp only [List.append_nil]
        have : headNonWsB (nullableLit.reverse) = true := by decide
        exact headNonWsB_append_rev (litOf dtype ++ wa) this
  | cons it2 rest ih =>
    intro it hit hitems
    obtain ⟨it2', rest', W, hcol, hmap, hokit2', hokrest', hW, heq, hhead⟩ :=
      ih it2 (hitems it2 (List.mem_cons_self it2 rest))
        (fun x hx => hitems x (List.mem_cons_of_mem it2 hx))
    have hbody2 : bodyText ⟨it2.lead, it2'.col, it2'.wa, it2'.wb⟩ = bodyText it2' := rfl
    refine ⟨it, ⟨it2.lead, it2'.col, it2'.wa, it2'.wb⟩ :: rest', W, rfl, ?_, hit, ?_, hW, ?_, ?_⟩
    · simp only [List.map_cons, hcol, hmap]
    · intro x hx
      rcases List.mem_cons.mp hx with rfl | hx
      · exact ⟨(hitems it2 (List.mem_cons_self it2 rest)).1, hokit2'.2.1, hokit2'.2.2⟩
      · exact hokrest' x hx
    · have heq' : bodyText it2 ++ tailText rest = bodyText it2' ++ (tailText rest' ++ W) := by
        rw [heq, List.append_assoc]
      simp only [tailText, hbody2, List.cons_append, List.append_assoc, heq']
    · have hshape : bodyText it ++ tailText (⟨it2.lead, it2'.col, it2'.wa, it2'.wb⟩ :: rest') =
          (bodyText it ++ ',' :: it2.lead) ++ (bodyText it2' ++ tailText rest') := by
        simp only [tailText, hbody2, List.cons_append, List.append_assoc]
      rw [hshape]
      exact headNonWsB_append_rev _ hhead

/-- Leading and trailing whitespace on the whole schema string does
not change the parse result, because `schema::parse` trims first. -/
theorem schemaParse_ws_invariant (u s v : List Char) (hu : wsOnly u) (hv : wsOnly v) :
    schemaParse (u ++ s ++ v) = schemaParse s := by
  unfold schemaParse
  rw [trim_ws_invariant s hu hv]

/-- `schema::parse` succeeds on every schema string rendered from a
column list with whitespace at the grammar's trim points, and returns
exactly the rendered columns. -/
theorem schemaParse_gen (it : ColItem) (items : List ColItem) (v : List Char)
    (hit : okWs it) (hitems : ∀ x ∈ items, okWs x) (hv : wsOnly v) :
    schemaParse (it.lead ++ bodyText it ++ tailText items ++ v) =
      .ok (it.col :: items.map ColItem.col) := by
  have h1 : it.lead ++ bodyText it ++ tailText items ++ v =
      it.lead ++ (bodyText it ++ tailText items) ++ v := by
    simp [List.append_assoc]
  rw [h1, schemaParse_ws_invariant _ _ _ hit.1 hv]
  obtain ⟨it', items', W, hcol, hmap, hok', hoks', hW, heq, hhead⟩ :=
    splitTrailing items it hit hitems
  have h2 : bodyText it ++ tailText items =
      [] ++ (bodyText it' ++ tailText items') ++ W := by
    rw [heq]
    rfl
  rw [h2, schemaParse_ws_invariant _ _ _ (fun c hc => absurd hc (List.not_mem_nil c)) hW]
  have htrim : trim (bodyText it' ++ tailText items') = bodyText it' ++ tailText items' := by
    unfold trim
    rw [trimLeft_bodyText it' (tailText items')]
    exact trimRight_eq_self_of_headNonWsB hhead
  unfold schemaParse
  rw [htrim]
  have hlen : (bodyText it' ++ tailText items' ++ []).length <
      (bodyText it' ++ tailText items').length + 1 := by
    simp
  have hgen := parseLoopF_gen items' ((bodyText it' ++ tailText items').length + 1) it' []
    hok' hoks' (fun c hc => absurd hc (List.not_mem_nil c)) hlen
  rw [List.append_nil] at hgen
  rw [hgen, hcol, hmap]

/-- C1: for every schema string valid per the grammar — one or more
columns, each a type literal optionally followed by `Nullable`, joined
by `,` with whitespace only at the grammar's trim points —
`schema::parse` succeeds and returns one column per comma-separated
segment whose `{dtype, nullable}` matches the tokens (the rendered
string has one segment per `ColItem`, and the result is exactly the
rendered column of each item in order). In particular
`parse("Float32 Nullable, Int32, Float32")` returns
`[{Float32, nullable}, {Int32}, {Float32}]`, and leading or trailing
whitespace on the whole string does not change the result. -/
theorem claim_C1 :
    (∀ (it : ColItem) (items : List ColItem) (v : List Char),
      okWs it → (∀ x ∈ items, okWs x) → wsOnly v →
      schemaParse (it.lead ++ bodyText it ++ tailText items ++ v) =
        .ok (it.col :: items.map ColItem.col)) ∧
    schemaParse "Float32 Nullable, Int32, Float32".toList =
      .ok [⟨.float32, true⟩, ⟨.int32, false⟩, ⟨.float32, false⟩] ∧
    (∀ (u s v : List Char), wsOnly u → wsOnly v →
      schemaParse (u ++ s ++ v) = schemaParse s) :=
  ⟨schemaParse_gen, by decide, schemaParse_ws_invariant⟩

theorem claim_C1_witness :
    schemaParse ((⟨[' '], ⟨.int32, true⟩, [' '], [' ']⟩ : ColItem).lead ++
      bodyText ⟨[' '], ⟨.int32, true⟩, [' '], [' ']⟩ ++
      tailText [⟨[' '], ⟨.float32, false⟩, [], []⟩] ++ [' ']) =
      .ok [⟨.int32, true⟩, ⟨.float32, false⟩] ∧
    schemaParse (([' '] : List Char) ++ "Int32".toList ++ [' ']) =
      schemaParse "Int32".toList :=
  ⟨claim_C1.1 ⟨[' '], ⟨.int32, true⟩, [' '], [' ']⟩ [⟨[' '], ⟨.float32, false⟩, [], []⟩] [' ']
      (by decide) (by decide) (by decide),
   claim_C1.2.2 [' '] "Int32".toList [' '] (by decide) (by decide)⟩

/-! ## Scalar codec: `impl Parse for i32` / `impl Parse for f32`

`i32::parse` is `i32::from_str_radix(bytes, 10)`; `f32::parse` is
`f32::from_str(bytes)`. We model `from_str_radix` exactly (including
its checked arithmetic against the i32 bounds); for `f32::from_str` we
model its acceptance (the set of inputs it parses without error),
which is purely lexical — the floating-point value itself is not
needed by any claim about error behaviour. -/

/-- `char::to_digit(10)`: a decimal digit's value. -/
def toDigit10 (c : Char) : Option Nat :=
  if c.isDigit then some (c.toNat - '0'.toNat) else none

/-- Checked i32 arithmetic: the result if it fits `[-2^31, 2^31-1]`. -/
def i32chk (v : Int) : Option Int :=
  if -2147483648 ≤ v ∧ v ≤ 2147483647 then some v else none

/-- The digit loop of `from_str_radix` for a positive parse:
per digit, `checked_mul` by the radix then `checked_add`. -/
def i32goPos : List Char → Int → Option Int
  | [], acc => some acc
  | c :: rest, acc =>
    match toDigit10 c with
    | none => none
    | some x =>
      match i32chk (acc * 10) with
      | none => none
      | some m =>
        match i32chk (m + (x : Int)) with
        | none => none
        | some a => i32goPos rest a

/-- The digit loop of `from_str_radix` for a negative parse:
per digit, `checked_mul` by the radix then `checked_sub`. -/
def i32goNeg : List Char → Int → Option Int
  | [], acc => some acc
  | c :: rest, acc =>
    match toDigit10 c with
    | none => none
    | some x =>
      match i32chk (acc * 10) with
      | none => none
      | some m =>
        match i32chk (m - (x : Int)) with
        | none => none
        | some a => i32goNeg rest a

/-- `i32::from_str_radix(s, 10)`: an optional `+`/`-` sign, then at
least one digit, accumulated with checked arithmetic. -/
def i32FromStr (s : List Char) : Option Int :=
  match s with
  | [] => none
  | c :: rest =>
    if c = '+' then (if rest.isEmpty then none else i32goPos rest 0)
    else if c = '-' then (if rest.isEmpty then none else i32goNeg rest 0)
    else i32goPos (c :: rest) 0

/-- The radix-10 value of a digit string continuing from `acc`. -/
def valFrom (acc : Int) (ds : List Char) : Int :=
  ds.foldl (fun a c => a * 10 + ((c.toNat - '0'.toNat : Nat) : Int)) acc

/-- The radix-10 value of a digit string continuing from `acc` with
subtraction (the negative branch of `from_str_radix`). -/
def negFrom (acc : Int) (ds : List Char) : Int :=
  ds.foldl (fun a c => a * 10 - ((c.toNat - '0'.toNat : Nat) : Int)) acc

/-- The numeric value the spec assigns to a digit string. -/
def digitsVal (ds : List Char) : Int := valFrom 0 ds

/-- The spec's i32 range check: the value if it is in range,
otherwise a `ParseError` (`none`). -/
def inI32Range (v : Int) : Option Int :=
  if -2147483648 ≤ v ∧ v ≤ 2147483647 then some v else none

/-- Specification-side scalar parse for Int32, written from the
spec's words: the text is exactly that type's lexical form — an
optional sign and one or more radix-10 decimal digits — and the
signed value must be in i32 range; every lexically invalid or
out-of-range input is a `ParseError` (`none`), with no partial
parsing and no whitespace tolerance. -/
def i32SpecParse (s : List Char) : Option Int :=
  match s with
  | [] => none
  | c :: rest =>
    if c = '+' then
      (if rest ≠ [] ∧ ∀ x ∈ rest, x.isDigit = true then inI32Range (digitsVal rest) else none)
    else if c = '-' then
      (if rest ≠ [] ∧ ∀ x ∈ rest, x.isDigit = true then inI32Range (-digitsVal rest) else none)
    else
      (if c :: rest ≠ [] ∧ ∀ x ∈ c :: rest, x.isDigit = true then
        inI32Range (digitsVal (c :: rest)) else none)

example : i32FromStr "123".toList = some 123 := by decide
example : i32FromStr "-2147483648".toList = some (-2147483648) := by decide
example : i32FromStr "2147483648".toList = none := by decide
example : i32FromStr "-2147483649".toList = none := by decide
example : i32FromStr "+17".toList = some 17 := by decide
example : i32FromStr " 1".toList = none := by decide
example : i32FromStr "1 ".toList = none := by decide
example : i32FromStr "".toList = none := by decide
example : i32FromStr "+".toList = none := by decide
example : i32FromStr "00042".toList = some 42 := by decide

theorem valFrom_cons (acc : Int) (c : Char) (ds : List Char) :
    valFrom acc (c :: ds) = valFrom (acc * 10 + ((c.toNat - '0'.toNat : Nat) : Int)) ds := rfl

theorem valFrom_ge : ∀ (ds : List Char) (acc : Int), 0 ≤ acc → acc ≤ valFrom acc ds := by
  intro ds
  induction ds with
  | nil => intro acc _; exact le_refl acc
  | cons c ds ih =>
    intro acc hacc
    have hd : (0 : Int) ≤ ((c.toNat - '0'.toNat : Nat) : Int) := Int.natCast_nonneg _
    rw [valFrom_cons]
    have h1 := ih (acc * 10 + ((c.toNat - '0'.toNat : Nat) : Int)) (by nlinarith)
    nlinarith

theorem negFrom_cons (acc : Int) (c : Char) (ds : List Char) :
    negFrom acc (c :: ds) = negFrom (acc * 10 - ((c.toNat - '0'.toNat : Nat) : Int)) ds := rfl

theorem negFrom_le : ∀ (ds : List Char) (acc : Int), acc ≤ 0 → negFrom acc ds ≤ acc := by
  intro ds
  induction ds with
  | nil => intro acc _; exact le_refl acc
  | cons c ds ih =>
    intro acc hacc
    have hd : (0 : Int) ≤ ((c.toNat - '0'.toNat : Nat) : Int) := Int.natCast_nonneg _
    rw [negFrom_cons]
    have h1 := ih (acc * 10 - ((c.toNat - '0'.toNat : Nat) : Int)) (by nlinarith)
    nlinarith

theorem negFrom_eq_neg_valFrom : ∀ (ds : List Char) (acc : Int),
    negFrom acc ds = -(valFrom (-acc) ds) := by
  intro ds
  induction ds with
  | nil => intro acc; simp [negFrom, valFrom]
  | cons c ds ih =>
    intro acc
    rw [negFrom_cons, valFrom_cons, ih]
    ring_nf

theorem i32goPos_bad : ∀ (ds : List Char) (acc : Int),
    ¬(∀ c ∈ ds, c.isDigit = true) → i32goPos ds acc = none := by
  intro ds
  induction ds with
  | nil => intro acc h; exact absurd (fun c hc => absurd hc (List.not_mem_nil c)) h
  | cons c ds ih =>
    intro acc h
    by_cases hc : c.isDigit = true
    · have hds : ¬(∀ x ∈ ds, x.isDigit = true) := by
        intro hall
        exact h (fun x hx => by
          rcases List.mem_cons.mp hx with rfl | hx
          · exact hc
          · exact hall x hx)
      have hd : toDigit10 c = some (c.toNat - '0'.toNat) := by simp [toDigit10, hc]
      simp only [i32goPos, hd]
      cases h1 : i32chk (acc * 10) with
      | none => rfl
      | some m =>
        dsimp only
        cases h2 : i32chk (m + ((c.toNat - '0'.toNat : Nat) : Int)) with
        | none => rfl
        | some a => exact ih a hds
    · have hd : toDigit10 c = none := by simp [toDigit10, hc]
      simp only [i32goPos, hd]

theorem i32goNeg_bad : ∀ (ds : List Char) (acc : Int),
    ¬(∀ c ∈ ds, c.isDigit = true) → i32goNeg ds acc = none := by
  intro ds
  induction ds with
  | nil => intro acc h; exact absurd (fun c hc => absurd hc (List.not_mem_nil c)) h
  | cons c ds ih =>
    intro acc h
    by_cases hc : c.isDigit = true
    · have hds : ¬(∀ x ∈ ds, x.isDigit = true) := by
        intro hall
        exact h (fun x hx => by
          rcases List.mem_cons.mp hx with rfl | hx
          · exact hc
          · exact hall x hx)
      have hd : toDigit10 c = some (c.toNat - '0'.toNat) := by simp [toDigit10, hc]
      simp only [i32goNeg, hd]
      cases h1 : i32chk (acc * 10) with
      | none => rfl
      | some m =>
        dsimp only
        cases h2 : i32chk (m - ((c.toNat - '0'.toNat : Nat) : Int)) with
        | none => rfl
        | some a => exact ih a hds
    · have hd : toDigit10 c = none := by simp [toDigit10, hc]
      simp only [i32goNeg, hd]

theorem i32goPos_eq : ∀ (ds : List Char) (acc : Int), (∀ c ∈ ds, c.isDigit = true) →
    0 ≤ acc → acc ≤ 2147483647 →
    i32goPos ds acc =
      if valFrom acc ds ≤ 2147483647 then some (valFrom acc ds) else none := by
  intro ds
  induction ds with
  | nil =>
    intro acc _ _ hmax
    rw [if_pos (by exact hmax)]
    rfl
  | cons c ds ih =>
    intro acc hall h0 hmax
    have hc : c.isDigit = true := hall c (List.mem_cons_self c ds)
    have hall2 : ∀ x ∈ ds, x.isDigit = true := fun x hx => hall x (List.mem_cons_of_mem c hx)
    have hd : toDigit10 c = some (c.toNat - '0'.toNat) := by simp [toDigit10, hc]
    have hdpos : (0 : Int) ≤ ((c.toNat - '0'.toNat : Nat) : Int) := Int.natCast_nonneg _
    simp only [i32goPos, hd]
    rw [valFrom_cons]
    by_cases hm : acc * 10 ≤ 2147483647
    · have hchk1 : i32chk (acc * 10) = some (acc * 10) := by
        rw [i32chk, if_pos ⟨by nlinarith, hm⟩]
      rw [hchk1]
      dsimp only
      by_cases ha : acc * 10 + ((c.toNat - '0'.toNat : Nat) : Int) ≤ 2147483647
      · have hchk2 : i32chk (acc * 10 + ((c.toNat - '0'.toNat : Nat) : Int)) =
            some (acc * 10 + ((c.toNat - '0'.toNat : Nat) : Int)) := by
          rw [i32chk, if_pos ⟨by nlinarith, ha⟩]
        rw [hchk2]
        exact ih _ hall2 (by nlinarith) ha
      · have hchk2 : i32chk (acc * 10 + ((c.toNat - '0'.toNat : Nat) : Int)) = none := by
          rw [i32chk, if_neg]
          intro hcon
          exact ha hcon.2
        rw [hchk2, if_neg]
        intro hcon
        have := valFrom_ge ds (acc * 10 + ((c.toNat - '0'.toNat : Nat) : Int)) (by nlinarith)
        omega
    · have hchk1 : i32chk (acc * 10) = none := by
        rw [i32chk, if_neg]
        intro hcon
        exact hm hcon.2
      rw [hchk1, if_neg]
      intro hcon
      have := valFrom_ge ds (acc * 10 + ((c.toNat - '0'.toNat : Nat) : Int)) (by nlinarith)
      omega

theorem i32goNeg_eq : ∀ (ds : List Char) (acc : Int), (∀ c ∈ ds, c.isDigit = true) →
    acc ≤ 0 → -2147483648 ≤ acc →
    i32goNeg ds acc =
      if -2147483648 ≤ negFrom acc ds then some (negFrom acc ds) else none := by
  intro ds
  induction ds with
  | nil =>
    intro acc _ _ hmin
    rw [if_pos (by exact hmin)]
    rfl
  | cons c ds ih =>
    intro acc hall h0 hmin
    have hc : c.isDigit = true := hall c (List.mem_cons_self c ds)
    have hall2 : ∀ x ∈ ds, x.isDigit = true := fun x hx => hall x (List.mem_cons_of_mem c hx)
    have hd : toDigit10 c = some (c.toNat - '0'.toNat) := by simp [toDigit10, hc]
    have hdpos : (0 : Int) ≤ ((c.toNat - '0'.toNat : Nat) : Int) := Int.natCast_nonneg _
    simp only [i32goNeg, hd]
    rw [negFrom_cons]
    by_cases hm : -2147483648 ≤ acc * 10
    · have hchk1 : i32chk (acc * 10) = some (acc * 10) := by
        rw [i32chk, if_pos ⟨hm, by nlinarith⟩]
      rw [hchk1]
      dsimp only
      by_cases ha : -2147483648 ≤ acc * 10 - ((c.toNat - '0'.toNat : Nat) : Int)
      · have hchk2 : i32chk (acc * 10 - ((c.toNat - '0'.toNat : Nat) : Int)) =
            some (acc * 10 - ((c.toNat - '0'.toNat : Nat) : Int)) := by
          rw [i32chk, if_pos ⟨ha, by nlinarith⟩]
        rw [hchk2]
        exact ih _ hall2 (by nlinarith) ha
      · have hchk2 : i32chk (acc * 10 - ((c.toNat - '0'.toNat : Nat) : Int)) = none := by
          rw [i32chk, if_neg]
          intro hcon
          exact ha hcon.1
        rw [hchk2, if_neg]
        intro hcon
        have := negFrom_le ds (acc * 10 - ((c.toNat - '0'.toNat : Nat) : Int)) (by nlinarith)
        omega
    · have hchk1 : i32chk (acc * 10) = none := by
        rw [i32chk, if_neg]
        intro hcon
        exact hm hcon.1
      rw [hchk1, if_neg]
      intro hcon
      have := negFrom_le ds (acc * 10 - ((c.toNat - '0'.toNat : Nat) : Int)) (by nlinarith)
      omega

theorem i32corePos_eq (ds : List Char) :
    (if ds.isEmpty then none else i32goPos ds 0) =
      if ds ≠ [] ∧ ∀ x ∈ ds, x.isDigit = true then inI32Range (digitsVal ds) else none := by
  cases hds : ds.isEmpty with
  | true =>
    have : ds = [] := List.isEmpty_iff.mp hds
    subst this
    rw [if_pos rfl, if_neg]
    intro hcon
    exact hcon.1 rfl
  | false =>
    rw [if_neg (by simp)]
    have hne : ds ≠ [] := by
      intro h
      subst h
      cases hds
    by_cases hall : ∀ x ∈ ds, x.isDigit = true
    · have h0 : (0 : Int) ≤ valFrom 0 ds := valFrom_ge ds 0 (le_refl (0 : Int))
      rw [if_pos (show ds ≠ [] ∧ ∀ x ∈ ds, x.isDigit = true from ⟨hne, hall⟩)]
      rw [i32goPos_eq ds 0 hall (le_refl (0 : Int)) (by omega)]
      unfold inI32Range digitsVal
      by_cases hv : valFrom 0 ds ≤ 2147483647
      · rw [if_pos hv,
          if_pos (show -2147483648 ≤ valFrom 0 ds ∧ valFrom 0 ds ≤ 2147483647 from ⟨by omega, hv⟩)]
      · rw [if_neg hv, if_neg]
        intro hcon
        exact hv hcon.2
    · rw [i32goPos_bad ds 0 hall, if_neg]
      intro hcon
      exact hall hcon.2

theorem i32coreNeg_eq (ds : List Char) :
    (if ds.isEmpty then none else i32goNeg ds 0) =
      if ds ≠ [] ∧ ∀ x ∈ ds, x.isDigit = true then inI32Range (-digitsVal ds) else none := by
  cases hds : ds.isEmpty with
  | true =>
    have : ds = [] := List.isEmpty_iff.mp hds
    subst this
    rw [if_pos rfl, if_neg]
    intro hcon
    exact hcon.1 rfl
  | false =>
    rw [if_neg (by simp)]
    have hne : ds ≠ [] := by
      intro h
      subst h
      cases hds
    by_cases hall : ∀ x ∈ ds, x.isDigit = true
    · have h0 : (0 : Int) ≤ valFrom 0 ds := valFrom_ge ds 0 (le_refl (0 : Int))
      have hneg : negFrom 0 ds = -(valFrom 0 ds) := by
        rw [negFrom_eq_neg_valFrom, neg_zero]
      rw [if_pos (show ds ≠ [] ∧ ∀ x ∈ ds, x.isDigit = true from ⟨hne, hall⟩)]
      rw [i32goNeg_eq ds 0 hall (le_refl (0 : Int)) (by omega), hneg]
      unfold inI32Range digitsVal
      by_cases hv : -2147483648 ≤ -valFrom 0 ds
      · rw [if_pos hv,
          if_pos (show -2147483648 ≤ -valFrom 0 ds ∧ -valFrom 0 ds ≤ 2147483647 from ⟨hv, by omega⟩)]
      · rw [if_neg hv, if_neg]
        intro hcon
        exact hv hcon.1
    · rw [i32goNeg_bad ds 0 hall, if_neg]
      intro hcon
      exact hall hcon.2

/-- `i32::from_str_radix(·, 10)` accepts exactly the spec's lexical
form for Int32 — optional sign, one or more decimal digits, value in
i32 range — and returns the radix-10 value; everything else is an
error. -/
theorem i32FromStr_eq_spec (s : List Char) : i32FromStr s = i32SpecParse s := by
  cases s with
  | nil => rfl
  | cons c rest =>
    by_cases h1 : c = '+'
    · simp only [i32FromStr, i32SpecParse, h1, if_pos rfl]
      exact i32corePos_eq rest
    · by_cases h2 : c = '-'
      · simp only [i32FromStr, i32SpecParse, if_neg h1, h2, if_pos rfl]
        exact i32coreNeg_eq rest
      · simp only [i32FromStr, i32SpecParse, if_neg h1, if_neg h2]
        have := i32corePos_eq (c :: rest)
        rw [if_neg (by simp)] at this
        exact this

/-! ### `f32::from_str` acceptance

`f32::from_str` is `dec2flt`: reject empty input, strip one optional
sign character, run `parse_decimal` (eat digits, optional `.` and
fraction digits, optional `e`/`E` exponent with its own optional sign
and mandatory digits, nothing trailing), and on a lexically invalid
remainder accept exactly the literal strings `inf` and `NaN`.
Out-of-range decimal values saturate to infinity or zero and still
parse successfully, so acceptance is purely lexical. The numeric
value is not modelled — no claim depends on it. -/

/-- Strip one leading sign character if present (the sign handling
shared by `extract_sign` and `parse_exp`). -/
def stripSign1 (s : List Char) : List Char :=
  match s with
  | [] => []
  | c :: t => if c = '-' then t else if c = '+' then t else c :: t

/-- After the sign, `parse_exp` demands digits and nothing else. -/
def expOkCore (rest : List Char) : Bool :=
  (rest.dropWhile Char.isDigit).isEmpty && !(rest.takeWhile Char.isDigit).isEmpty

/-- The `parse_exp` acceptance of `dec2flt`: an optional sign, then
one or more digits and nothing else. -/
def parseExpOk (s : List Char) : Bool :=
  expOkCore (stripSign1 s)

/-- The `parse_decimal` acceptance of `dec2flt`: digits, then
optionally a point and fraction digits (at least one digit on one
side of the point), then optionally an exponent, with nothing
trailing. -/
def parseDecimalOk (s : List Char) : Bool :=
  if s.isEmpty then false
  else
    match s.dropWhile Char.isDigit with
    | [] => true
    | r :: t =>
      if r = 'e' ∨ r = 'E' then !(s.takeWhile Char.isDigit).isEmpty && parseExpOk t
      else if r = '.' then
        (if (s.takeWhile Char.isDigit).isEmpty && (t.takeWhile Char.isDigit).isEmpty then false
        else
          match t.dropWhile Char.isDigit with
          | [] => true
          | r2 :: t2 => if r2 = 'e' ∨ r2 = 'E' then parseExpOk t2 else false)
      else false

/-- Acceptance of `f32::from_str` (`dec2flt`): non-empty, strip an
optional sign, then either a valid decimal or the exact special
strings `inf` / `NaN`. -/
def f32ParseOk (s : List Char) : Bool :=
  if s.isEmpty then false
  else
    if parseDecimalOk (stripSign1 s) then true
    else if stripSign1 s = "inf".toList then true
    else if stripSign1 s = "NaN".toList then true
    else false

example : f32ParseOk "1.5".toList = true := by decide
example : f32ParseOk "-3".toList = true := by decide
example : f32ParseOk "+.25".toList = true := by decide
example : f32ParseOk "3.".toList = true := by decide
example : f32ParseOk "3.e5".toList = true := by decide
example : f32ParseOk "1e-7".toList = true := by decide
example : f32ParseOk "6E+2".toList = true := by decide
example : f32ParseOk "inf".toList = true := by decide
example : f32ParseOk "-inf".toList = true := by decide
example : f32ParseOk "NaN".toList = true := by decide
example : f32ParseOk "nan".toList = false := by decide
example : f32ParseOk "".toList = false := by decide
example : f32ParseOk ".".toList = false := by decide
example : f32ParseOk ".e5".toList = false := by decide
example : f32ParseOk "e5".toList = false := by decide
example : f32ParseOk "1e".toList = false := by decide
example : f32ParseOk "1e+".toList = false := by decide
example : f32ParseOk " 1".toList = false := by decide
example : f32ParseOk "1 ".toList = false := by decide
example : f32ParseOk "1.2.3".toList = false := by decide
example : f32ParseOk "--1".toList = false := by decide
example : f32ParseOk "1e5x".toList = false := by decide

/-- One or more decimal digits. -/
def IsDigitStr (l : List Char) : Prop := l ≠ [] ∧ ∀ c ∈ l, c.isDigit = true

/-- An optional sign: empty, `+`, or `-`. -/
def SignOpt (sg : List Char) : Prop := sg = [] ∨ sg = ['+'] ∨ sg = ['-']

/-- A mantissa: digits, or digits around a decimal point with at
least one digit on one side. -/
def MantissaForm (m : List Char) : Prop :=
  IsDigitStr m ∨
  ∃ i f, m = i ++ '.' :: f ∧ (∀ c ∈ i, c.isDigit = true) ∧ (∀ c ∈ f, c.isDigit = true) ∧
    (i ≠ [] ∨ f ≠ [])

/-- An exponent part: `e` or `E`, an optional sign, digits. -/
def ExpForm (e : List Char) : Prop :=
  ∃ (c : Char) (sg d : List Char), (c = 'e' ∨ c = 'E') ∧ e = c :: (sg ++ d) ∧
    SignOpt sg ∧ IsDigitStr d

/-- The lexical form of a Float32 literal per the spec: an optional
sign, then either the special strings `inf` / `NaN` or a mantissa
with an optional exponent. -/
def F32LitForm (s : List Char) : Prop :=
  ∃ sg b, s = sg ++ b ∧ SignOpt sg ∧
    (b = "inf".toList ∨ b = "NaN".toList ∨
      ∃ m e, b = m ++ e ∧ MantissaForm m ∧ (e = [] ∨ ExpForm e))

theorem dropWhile_head_false {p : Char → Bool} :
    ∀ (l : List Char) (c : Char) (t : List Char), l.dropWhile p = c :: t → p c = false := by
  intro l
  induction l with
  | nil => intro c t h; cases h
  | cons a l ih =>
    intro c t h
    by_cases ha : p a = true
    · rw [List.dropWhile_cons, if_pos ha] at h
      exact ih c t h
    · simp only [Bool.not_eq_true] at ha
      rw [List.dropWhile_cons, if_neg (by rw [ha]; exact Bool.false_ne_true)] at h
      cases h
      exact ha

theorem all_takeWhile_self {p : Char → Bool} : ∀ {l : List Char}, (∀ c ∈ l, p c = true) →
    l.takeWhile p = l := by
  intro l
  induction l with
  | nil => intro _; rfl
  | cons x xs ih =>
    intro h
    rw [List.takeWhile_cons, if_pos (h x (List.mem_cons_self x xs)),
      ih (fun c hc => h c (List.mem_cons_of_mem x hc))]

theorem all_dropWhile_nil {p : Char → Bool} : ∀ {l : List Char}, (∀ c ∈ l, p c = true) →
    l.dropWhile p = [] := by
  intro l
  induction l with
  | nil => intro _; rfl
  | cons x xs ih =>
    intro h
    rw [List.dropWhile_cons, if_pos (h x (List.mem_cons_self x xs))]
    exact ih (fun c hc => h c (List.mem_cons_of_mem x hc))

/-- `eat_digits` on a digit run followed by a non-digit (or nothing)
splits exactly at the boundary. -/
theorem eat_exact {p : Char → Bool} (m r : List Char) (hm : ∀ c ∈ m, p c = true)
    (hr : r = [] ∨ ∃ c t, r = c :: t ∧ p c = false) :
    (m ++ r).takeWhile p = m ∧ (m ++ r).dropWhile p = r := by
  have htake : r.takeWhile p = [] := by
    rcases hr with rfl | ⟨c, t, rfl, hc⟩
    · rfl
    · rw [List.takeWhile_cons, if_neg (by rw [hc]; exact Bool.false_ne_true)]
  have hdrop : r.dropWhile p = r := by
    rcases hr with rfl | ⟨c, t, rfl, hc⟩
    · rfl
    · rw [List.dropWhile_cons, if_neg (by rw [hc]; exact Bool.false_ne_true)]
  constructor
  · rw [List.takeWhile_append_of_pos hm, htake, List.append_nil]
  · rw [List.dropWhile_append_of_pos hm, hdrop]

theorem digit_ne_plus {c : Char} (h : c.isDigit = true) : c ≠ '+' := by
  intro he
  rw [he] at h
  exact absurd h (by decide)

theorem digit_ne_minus {c : Char} (h : c.isDigit = true) : c ≠ '-' := by
  intro he
  rw [he] at h
  exact absurd h (by decide)

theorem stripSign1_minus (t : List Char) : stripSign1 ('-' :: t) = t := by
  simp [stripSign1]

theorem stripSign1_plus (t : List Char) : stripSign1 ('+' :: t) = t := by
  simp [stripSign1]

theorem stripSign1_other {c : Char} (t : List Char) (h1 : c ≠ '-') (h2 : c ≠ '+') :
    stripSign1 (c :: t) = c :: t := by
  simp [stripSign1, h1, h2]

theorem expOkCore_iff (rest : List Char) : expOkCore rest = true ↔ IsDigitStr rest := by
  constructor
  · intro h
    rw [expOkCore, Bool.and_eq_true] at h
    have hdrop : rest.dropWhile Char.isDigit = [] := List.isEmpty_iff.mp h.1
    have hfull : rest.takeWhile Char.isDigit = rest := by
      have h2 := List.takeWhile_append_dropWhile Char.isDigit rest
      rw [hdrop, List.append_nil] at h2
      exact h2
    have htake : rest.takeWhile Char.isDigit ≠ [] := by
      intro hcon
      rw [hcon] at h
      cases h.2
    refine ⟨by rw [← hfull]; exact htake, ?_⟩
    intro x hx
    exact List.mem_takeWhile_imp
      (show x ∈ rest.takeWhile Char.isDigit from by rw [hfull]; exact hx)
  · intro ⟨hne, hall⟩
    rw [expOkCore, all_dropWhile_nil hall, all_takeWhile_self hall]
    cases rest with
    | nil => exact absurd rfl hne
    | cons x xs => rfl

theorem parseExpOk_form {t : List Char} (h : parseExpOk t = true) :
    ∃ sg d, t = sg ++ d ∧ SignOpt sg ∧ IsDigitStr d := by
  cases t with
  | nil => exact absurd h (by decide)
  | cons c u =>
    by_cases hm : c = '-'
    · subst hm
      rw [parseExpOk, stripSign1_minus] at h
      exact ⟨['-'], u, rfl, Or.inr (Or.inr rfl), (expOkCore_iff u).mp h⟩
    · by_cases hp : c = '+'
      · subst hp
        rw [parseExpOk, stripSign1_plus] at h
        exact ⟨['+'], u, rfl, Or.inr (Or.inl rfl), (expOkCore_iff u).mp h⟩
      · rw [parseExpOk, stripSign1_other u hm hp] at h
        exact ⟨[], c :: u, rfl, Or.inl rfl, (expOkCore_iff (c :: u)).mp h⟩

theorem parseExpOk_of_form {sg d : List Char} (hsg : SignOpt sg) (hd : IsDigitStr d) :
    parseExpOk (sg ++ d) = true := by
  rcases hsg with rfl | rfl | rfl
  · cases d with
    | nil => exact absurd rfl hd.1
    | cons x xs =>
      have hx : x.isDigit = true := hd.2 x (List.mem_cons_self x xs)
      show parseExpOk (x :: xs) = true
      rw [parseExpOk, stripSign1_other xs (digit_ne_minus hx) (digit_ne_plus hx)]
      exact (expOkCore_iff (x :: xs)).mpr hd
  · show parseExpOk ('+' :: d) = true
    rw [parseExpOk, stripSign1_plus]
    exact (expOkCore_iff d).mpr hd
  · show parseExpOk ('-' :: d) = true
    rw [parseExpOk, stripSign1_minus]
    exact (expOkCore_iff d).mpr hd

theorem isEmpty_ne_nil {l : List Char} (h : l ≠ []) : l.isEmpty = false := by
  cases l with
  | nil => exact absurd rfl h
  | cons x xs => rfl

theorem parseDecimalOk_form {b : List Char} (h : parseDecimalOk b = true) :
    ∃ m e, b = m ++ e ∧ MantissaForm m ∧ (e = [] ∨ ExpForm e) := by
  have hbne : b ≠ [] := by
    intro hcon
    subst hcon
    exact absurd h (by decide)
  have hIdig : ∀ c ∈ b.takeWhile Char.isDigit, c.isDigit = true :=
    fun c hc => List.mem_takeWhile_imp hc
  have hsplit : b.takeWhile Char.isDigit ++ b.dropWhile Char.isDigit = b :=
    List.takeWhile_append_dropWhile Char.isDigit b
  rw [parseDecimalOk, if_neg (by rw [isEmpty_ne_nil hbne]; exact Bool.false_ne_true)] at h
  cases hdrop : b.dropWhile Char.isDigit with
  | nil =>
    rw [hdrop, List.append_nil] at hsplit
    refine ⟨b, [], (List.append_nil b).symm, Or.inl ⟨hbne, ?_⟩, Or.inl rfl⟩
    intro c hc
    exact hIdig c (by rw [hsplit]; exact hc)
  | cons r t =>
    rw [hdrop] at h
    dsimp only at h
    by_cases hre : r = 'e' ∨ r = 'E'
    · rw [if_pos hre, Bool.and_eq_true] at h
      have hIne : b.takeWhile Char.isDigit ≠ [] := by
        intro hcon
        rw [hcon] at h
        cases h.1
      obtain ⟨sg, d, rfl, hsg, hd⟩ := parseExpOk_form h.2
      refine ⟨b.takeWhile Char.isDigit, r :: (sg ++ d), ?_, Or.inl ⟨hIne, hIdig⟩, Or.inr ?_⟩
      · rw [← hdrop]
        exact hsplit.symm
      · exact ⟨r, sg, d, hre, rfl, hsg, hd⟩
    · rw [if_neg hre] at h
      by_cases hdot : r = '.'
      · subst hdot
        rw [if_pos rfl] at h
        have hFdig : ∀ c ∈ t.takeWhile Char.isDigit, c.isDigit = true :=
          fun c hc => List.mem_takeWhile_imp hc
        have hFsplit : t.takeWhile Char.isDigit ++ t.dropWhile Char.isDigit = t :=
          List.takeWhile_append_dropWhile Char.isDigit t
        by_cases hcond : ((b.takeWhile Char.isDigit).isEmpty &&
            (t.takeWhile Char.isDigit).isEmpty) = true
        · rw [if_pos hcond] at h
          cases h
        · rw [if_neg hcond] at h
          have hor : b.takeWhile Char.isDigit ≠ [] ∨ t.takeWhile Char.isDigit ≠ [] := by
            by_cases hI : b.takeWhile Char.isDigit = []
            · right
              intro hF
              exact hcond (by rw [hI, hF]; rfl)
            · left
              exact hI
          cases hdrop2 : t.dropWhile Char.isDigit with
          | nil =>
            have hFall : t.takeWhile Char.isDigit = t := by
              have h2 := List.takeWhile_append_dropWhile Char.isDigit t
              rw [hdrop2, List.append_nil] at h2
              exact h2
            refine ⟨b.takeWhile Char.isDigit ++ '.' :: t, [], ?_,
              Or.inr ⟨b.takeWhile Char.isDigit, t, rfl, hIdig, ?_, ?_⟩, Or.inl rfl⟩
            · rw [List.append_nil, ← hdrop]
              exact hsplit.symm
            · intro c hc
              exact hFdig c (by rw [hFall]; exact hc)
            · rcases hor with hI | hF
              · exact Or.inl hI
              · right
                intro hcon
                subst hcon
                exact hF rfl
          | cons r2 t2 =>
            rw [hdrop2] at h
            dsimp only at h
            by_cases hre2 : r2 = 'e' ∨ r2 = 'E'
            · rw [if_pos hre2] at h
              obtain ⟨sg, d, rfl, hsg, hd⟩ := parseExpOk_form h
              refine ⟨b.takeWhile Char.isDigit ++ '.' :: t.takeWhile Char.isDigit,
                r2 :: (sg ++ d), ?_,
                Or.inr ⟨b.takeWhile Char.isDigit, t.takeWhile Char.isDigit, rfl, hIdig, hFdig,
                  ?_⟩, Or.inr ⟨r2, sg, d, hre2, rfl, hsg, hd⟩⟩
              · rw [List.append_assoc, List.cons_append]
                rw [show t.takeWhile Char.isDigit ++ r2 :: (sg ++ d) = t from by
                  rw [← hdrop2]; exact hFsplit]
                rw [← hdrop]
                exact hsplit.symm
              · rcases hor with hI | hF
                · exact Or.inl hI
                · exact Or.inr hF
            · rw [if_neg hre2] at h
              cases h
      · rw [if_neg hdot] at h
        cases h

theorem parseDecimalOk_of_form {m e : List Char} (hm : MantissaForm m)
    (he : e = [] ∨ ExpForm e) : parseDecimalOk (m ++ e) = true := by
  have hexp : ∀ (c : Char) (sg d : List Char), (c = 'e' ∨ c = 'E') → SignOpt sg → IsDigitStr d →
      e = c :: (sg ++ d) → c.isDigit = false := by
    intro c _ _ hce _ _ _
    rcases hce with rfl | rfl <;> decide
  rcases hm with ⟨hne, hall⟩ | ⟨i, f, rfl, hi, hf, hor⟩
  · -- digits only
    rcases he with rfl | ⟨c, sg, d, hce, rfl, hsg, hd⟩
    · rw [List.append_nil, parseDecimalOk,
        if_neg (by rw [isEmpty_ne_nil hne]; exact Bool.false_ne_true),
        all_dropWhile_nil hall]
    · have hcd : c.isDigit = false := by rcases hce with rfl | rfl <;> decide
      obtain ⟨htake, hdrop⟩ := eat_exact m (c :: (sg ++ d)) hall
        (Or.inr ⟨c, sg ++ d, rfl, hcd⟩)
      have hbne : m ++ c :: (sg ++ d) ≠ [] := by
        intro hcon
        cases m <;> cases hcon
      rw [parseDecimalOk, if_neg (by rw [isEmpty_ne_nil hbne]; exact Bool.false_ne_true), hdrop]
      dsimp only
      rw [if_pos hce, htake, Bool.and_eq_true]
      refine ⟨?_, parseExpOk_of_form hsg hd⟩
      rw [isEmpty_ne_nil hne]
      rfl
  · -- digits, point, digits
    have hdotd : ('.' : Char).isDigit = false := by decide
    rcases he with rfl | ⟨c, sg, d, hce, rfl, hsg, hd⟩
    · have hb : (i ++ '.' :: f) ++ [] = i ++ '.' :: f := List.append_nil _
      rw [hb]
      obtain ⟨htake, hdrop⟩ := eat_exact i ('.' :: f) hi (Or.inr ⟨'.', f, rfl, hdotd⟩)
      have hbne : i ++ '.' :: f ≠ [] := by
        intro hcon
        cases i <;> cases hcon
      rw [parseDecimalOk, if_neg (by rw [isEmpty_ne_nil hbne]; exact Bool.false_ne_true), hdrop]
      dsimp only
      rw [if_neg (by decide), if_pos rfl, all_dropWhile_nil hf, htake, all_takeWhile_self hf]
      rw [if_neg]
      intro hcon
      rw [Bool.and_eq_true] at hcon
      rcases hor with hI | hF
      · rw [isEmpty_ne_nil hI] at hcon
        cases hcon.1
      · rw [isEmpty_ne_nil hF] at hcon
        cases hcon.2
    · have hcd : c.isDigit = false := by rcases hce with rfl | rfl <;> decide
      have hb : (i ++ '.' :: f) ++ c :: (sg ++ d) = i ++ '.' :: (f ++ c :: (sg ++ d)) := by
        rw [List.append_assoc, List.cons_append]
      rw [hb]
      obtain ⟨htake, hdrop⟩ := eat_exact i ('.' :: (f ++ c :: (sg ++ d))) hi
        (Or.inr ⟨'.', _, rfl, hdotd⟩)
      obtain ⟨htake2, hdrop2⟩ := eat_exact f (c :: (sg ++ d)) hf (Or.inr ⟨c, _, rfl, hcd⟩)
      have hbne : i ++ '.' :: (f ++ c :: (sg ++ d)) ≠ [] := by
        intro hcon
        cases i <;> cases hcon
      rw [parseDecimalOk, if_neg (by rw [isEmpty_ne_nil hbne]; exact Bool.false_ne_true), hdrop]
      dsimp only
      rw [if_neg (by decide), if_pos rfl, hdrop2]
      dsimp only
      rw [if_neg, if_pos hce]
      · exact parseExpOk_of_form hsg hd
      · intro hcon
        rw [Bool.and_eq_true, htake, htake2] at hcon
        rcases hor with hI | hF
        · rw [isEmpty_ne_nil hI] at hcon
          cases hcon.1
        · rw [isEmpty_ne_nil hF] at hcon
          cases hcon.2

/-- `f32::from_str` accepts exactly the strings of `F32LitForm`: the
acceptance of the parser equals the spec's lexical form. -/
theorem f32ParseOk_iff (s : List Char) : f32ParseOk s = true ↔ F32LitForm s := by
  have hbody : ∀ b : List Char,
      (if parseDecimalOk b then true else if b = "inf".toList then true
        else if b = "NaN".toList then true else false) = true →
      (b = "inf".toList ∨ b = "NaN".toList ∨
        ∃ m e, b = m ++ e ∧ MantissaForm m ∧ (e = [] ∨ ExpForm e)) := by
    intro b h
    by_cases hp : parseDecimalOk b = true
    · exact Or.inr (Or.inr (parseDecimalOk_form hp))
    · rw [if_neg hp] at h
      by_cases hinf : b = "inf".toList
      · exact Or.inl hinf
      · rw [if_neg hinf] at h
        by_cases hnan : b = "NaN".toList
        · exact Or.inr (Or.inl hnan)
        · rw [if_neg hnan] at h
          cases h
  constructor
  · intro h
    have hsne : s ≠ [] := by
      intro hcon
      subst hcon
      exact absurd h (by decide)
    cases s with
    | nil => exact absurd rfl hsne
    | cons c u =>
      rw [f32ParseOk, if_neg (by rw [isEmpty_ne_nil hsne]; exact Bool.false_ne_true)] at h
      by_cases hm : c = '-'
      · subst hm
        rw [stripSign1_minus] at h
        exact ⟨['-'], u, rfl, Or.inr (Or.inr rfl), hbody u h⟩
      · by_cases hp : c = '+'
        · subst hp
          rw [stripSign1_plus] at h
          exact ⟨['+'], u, rfl, Or.inr (Or.inl rfl), hbody u h⟩
        · rw [stripSign1_other u hm hp] at h
          exact ⟨[], c :: u, rfl, Or.inl rfl, hbody (c :: u) h⟩
  · rintro ⟨sg, b, rfl, hsg, hb⟩
    have hbne : b ≠ [] := by
      rcases hb with rfl | rfl | ⟨m, e, rfl, hm, _⟩
      · decide
      · decide
      · rcases hm with ⟨hne', _⟩ | ⟨i, f, rfl, _, _, _⟩
        · intro hcon
          cases m with
          | nil => exact absurd rfl hne'
          | cons x xs => cases hcon
        · intro hcon
          cases i <;> cases hcon
    have hheadok : ∀ (c : Char) (t : List Char), b = c :: t → c ≠ '-' ∧ c ≠ '+' := by
      intro c t hbt
      rcases hb with rfl | rfl | ⟨m, e, rfl, hm, _⟩
      · rw [show "inf".toList = 'i' :: "nf".toList from rfl] at hbt
        injection hbt with h1 _
        subst h1
        exact ⟨by decide, by decide⟩
      · rw [show "NaN".toList = 'N' :: "aN".toList from rfl] at hbt
        injection hbt with h1 _
        subst h1
        exact ⟨by decide, by decide⟩
      · rcases hm with ⟨hne', hall⟩ | ⟨i, f, rfl, hi, _, _⟩
        · cases m with
          | nil => exact absurd rfl hne'
          | cons x xs =>
            rw [List.cons_append] at hbt
            injection hbt with h1 _
            rw [← h1]
            exact ⟨digit_ne_minus (hall x (List.mem_cons_self x xs)),
              digit_ne_plus (hall x (List.mem_cons_self x xs))⟩
        · cases i with
          | nil =>
            rw [List.nil_append, List.cons_append] at hbt
            injection hbt with h1 _
            subst h1
            exact ⟨by decide, by decide⟩
          | cons x xs =>
            rw [List.cons_append, List.cons_append] at hbt
            injection hbt with h1 _
            rw [← h1]
            exact ⟨digit_ne_minus (hi x (List.mem_cons_self x xs)),
              digit_ne_plus (hi x (List.mem_cons_self x xs))⟩
    have hsne : sg ++ b ≠ [] := by
      rcases hsg with rfl | rfl | rfl
      · rw [List.nil_append]
        exact hbne
      · intro hcon
        cases hcon
      · intro hcon
        cases hcon
    have hstrip : stripSign1 (sg ++ b) = b := by
      rcases hsg with rfl | rfl | rfl
      · rw [List.nil_append]
        cases b with
        | nil => exact absurd rfl hbne
        | cons c t =>
          obtain ⟨h1, h2⟩ := hheadok c t rfl
          exact stripSign1_other t h1 h2
      · show stripSign1 ('+' :: b) = b
        exact stripSign1_plus b
      · show stripSign1 ('-' :: b) = b
        exact stripSign1_minus b
    rw [f32ParseOk, if_neg (by rw [isEmpty_ne_nil hsne]; exact Bool.false_ne_true), hstrip]
    rcases hb with rfl | rfl | ⟨m, e, rfl, hm, he⟩
    · decide
    · decide
    · rw [if_pos (parseDecimalOk_of_form hm he)]

/-- C3: for each supported data type the scalar codec's `parse`
interprets the text exactly as that type's lexical form and errors on
everything else, with no whitespace tolerance: `i32::parse` (radix-10
`from_str_radix`) equals the spec-side optional-sign/digits/range
reading, `f32::parse` (`from_str`) accepts exactly the spec's
floating-point literal form, and in particular `" 1"` and `"1 "` fail
as Int32. -/
theorem claim_C3 :
    (∀ s : List Char, i32FromStr s = i32SpecParse s) ∧
    (∀ s : List Char, f32ParseOk s = true ↔ F32LitForm s) ∧
    i32FromStr " 1".toList = none ∧
    i32FromStr "1 ".toList = none :=
  ⟨i32FromStr_eq_spec, f32ParseOk_iff, by decide, by decide⟩

/-! ## Scalar codec: the `write` direction

`<i32 as Parse>::write` calls `itoa::write(&mut *output, *self)`:
`itoa` formats the value into a stack buffer and then calls
`write_all` on the output slice. `io::Write for &mut [u8]` copies
`min(data_len, buf_len)` bytes into the front of the slice and
`write_all` reports `WriteZero` when not everything fit — so a
too-small buffer receives a truncated prefix of the rendered text
and the call returns an error. `dtoa::write` (the f32 path) follows
the same format-then-`write_all` shape, so the buffer-size behaviour
below is stated generically over the rendered text (`writeAllSlice`)
as well as concretely for i32. -/

/-- The decimal rendering `itoa` produces for an i32 value: a minus
sign for negatives, then the decimal digits. -/
def renderI32 (v : Int) : List Char :=
  if v < 0 then '-' :: Nat.toDigits 10 (-v).toNat else Nat.toDigits 10 v.toNat

/-- `write_all` on a `&mut [u8]`: copy `min(data.length, buf.length)`
bytes of `data` over the front of `buf`; succeed only when all of
`data` fit. Returns the success flag and the buffer contents after
the call. -/
def writeAllSlice (data buf : List Char) : Bool × List Char :=
  let amt := min data.length buf.length
  (decide (amt = data.length), data.take amt ++ buf.drop amt)

/-- `<i32 as Parse>::write`: render the value, `write_all` it into
the buffer, and on success return the remainder slice past the
written bytes (`&mut output[bytes..]`). The second component is the
buffer contents after the call. -/
def i32write (v : Int) (buf : List Char) : Except KbtError (List Char) × List Char :=
  if (writeAllSlice (renderI32 v) buf).1 then
    (.ok ((writeAllSlice (renderI32 v) buf).2.drop (renderI32 v).length),
      (writeAllSlice (renderI32 v) buf).2)
  else (.error .mk, (writeAllSlice (renderI32 v) buf).2)

example : renderI32 10 = ['1', '0'] := by decide
example : renderI32 (-3) = ['-', '3'] := by decide
example : renderI32 0 = ['0'] := by decide
example : i32write 10 ['x', 'y', 'z'] = (.ok ['z'], ['1', '0', 'z']) := rfl
example : i32write 10 ['x'] = (.error .mk, ['1']) := rfl

theorem writeAllSlice_small (data buf : List Char) (h : buf.length < data.length) :
    (writeAllSlice data buf).1 = false := by
  simp only [writeAllSlice, decide_eq_false_iff_not]
  omega

theorem writeAllSlice_fit (data buf : List Char) (h : data.length ≤ buf.length) :
    writeAllSlice data buf = (true, data ++ buf.drop data.length) := by
  have hmin : min data.length buf.length = data.length := Nat.min_eq_left h
  simp only [writeAllSlice, hmin, List.take_length, decide_eq_true_eq]
  rfl

/-- C5 counterexample: writing the value 10 (rendered text `"10"`,
two bytes) into a one-byte buffer returns an `EncodeError`, but the
buffer does not keep its old contents — `write_all` copies the
truncated prefix `'1'` into it before reporting the error, so a
truncated write into the buffer does happen. -/
theorem claim_C5_counterexample :
    (i32write 10 ['x']).1 = .error .mk ∧ (i32write 10 ['x']).2 ≠ ['x'] :=
  ⟨rfl, by decide⟩

/-- C5 (amended): if the output buffer is too small for the rendered
text (in particular one byte short), `write` returns an
`EncodeError` and never reports success on a truncated write — but
the buffer's prefix may be overwritten with the truncated rendering.
On success the buffer holds the full rendered text followed by the
untouched tail, and the returned remainder is exactly that tail.
The second conjunct states the buffer-size failure generically over
the rendered text, covering the identical format-then-`write_all`
path that `dtoa::write` uses for f32. -/
theorem claim_C5 :
    (∀ (v : Int) (buf : List Char), buf.length < (renderI32 v).length →
      (i32write v buf).1 = .error .mk) ∧
    (∀ (data buf : List Char), buf.length < data.length →
      (writeAllSlice data buf).1 = false) ∧
    (∀ (v : Int) (buf rem : List Char), (i32write v buf).1 = .ok rem →
      (i32write v buf).2 = renderI32 v ++ buf.drop (renderI32 v).length ∧
      rem = buf.drop (renderI32 v).length) := by
  refine ⟨?_, fun data buf h => writeAllSlice_small data buf h, ?_⟩
  · intro v buf h
    unfold i32write
    rw [writeAllSlice_small (renderI32 v) buf h, if_neg Bool.false_ne_true]
  · intro v buf rem h
    by_cases hfit : (renderI32 v).length ≤ buf.length
    · have hw := writeAllSlice_fit (renderI32 v) buf hfit
      unfold i32write at h ⊢
      rw [hw] at h ⊢
      rw [if_pos rfl] at h ⊢
      have hdrop : (renderI32 v ++ buf.drop (renderI32 v).length).drop (renderI32 v).length =
          buf.drop (renderI32 v).length := List.drop_left _ _
      rw [hdrop] at h
      cases h
      exact ⟨rfl, rfl⟩
    · have hsmall := writeAllSlice_small (renderI32 v) buf (by omega)
      unfold i32write at h
      rw [hsmall, if_neg Bool.false_ne_true] at h
      cases h

theorem claim_C5_witness :
    (i32write 99 ['q']).1 = .error .mk ∧
    (writeAllSlice ['1', '0'] ['q']).1 = false ∧
    ((i32write 12 ['a', 'b', 'c']).2 =
        renderI32 12 ++ ['a', 'b', 'c'].drop (renderI32 12).length ∧
      ['c'] = ['a', 'b', 'c'].drop (renderI32 12).length) :=
  ⟨claim_C5.1 99 ['q'] (by decide), claim_C5.2.1 ['1', '0'] ['q'] (by decide),
   claim_C5.2.2 12 ['a', 'b', 'c'] ['c'] rfl⟩

/-! ## CSV row encoder

`kobuta::parse_csv` is called by the CLI
(`src/bin/parse_csv.rs`) but its definition is not among the
sources; only `Column::parse_data` — which it drives — is. The
encoder is modelled from §4.3 of the spec over rows already split
into fields. -/

/-- `enum Data`: the decoded scalar of one field. The f32 payload
keeps the accepted lexeme; the IEEE-754 value is not modelled (no
claim depends on it). -/
inductive Data where
  | float32 (lexeme : List Char)
  | int32 (v : Int)
deriving DecidableEq, Repr

/-- `Column::parse_data`: dispatch on the column's dtype to the
scalar codec's parse; a field that fails its codec is a `KbtError`. -/
def parse_data (c : Column) (field : List Char) : Except KbtError Data :=
  match c.dtype with
  | .float32 => if f32ParseOk field then .ok (.float32 field) else .error .mk
  | .int32 =>
    match i32FromStr field with
    | some v => .ok (.int32 v)
    | none => .error .mk

/-- The `?`-propagation of the source: apply `f` to each element in
order and abort at the first error, touching no later element. -/
def exMapM {α β : Type} (f : α → Except KbtError β) : List α → Except KbtError (List β)
  | [] => .ok []
  | a :: as =>
    match f a with
    | .error e => .error e
    | .ok b =>
      match exMapM f as with
      | .error e => .error e
      | .ok bs => .ok (b :: bs)

/-- Modelled from the spec: one row of `kobuta::parse_csv` (the CSV
row encoder, whose definition is missing from the sources). Per
§4.3, a row whose field count differs from the schema's column count
is a row-level failure; otherwise every field is parsed by its
column's scalar codec via `Column::parse_data`. -/
def encodeRow (schema : List Column) (row : List (List Char)) : Except KbtError (List Data) :=
  if row.length = schema.length then exMapM (fun p => parse_data p.1 p.2) (schema.zip row)
  else .error .mk

/-- Modelled from the spec: `kobuta::parse_csv` over rows already
split into fields. Per §4.3 and §7, every failure aborts the entire
operation immediately — encode-all-or-fail-fast, with no
partial-success or per-row skip-and-continue mode. -/
def parse_csv (schema : List Column) (rows : List (List (List Char))) :
    Except KbtError (List (List Data)) :=
  exMapM (encodeRow schema) rows

theorem exMapM_error_of_mem {α β : Type} (f : α → Except KbtError β) :
    ∀ (l : List α) (a : α), a ∈ l → f a = .error .mk → exMapM f l = .error .mk := by
  intro l
  induction l with
  | nil => intro a ha; cases ha
  | cons x xs ih =>
    intro a ha hf
    rcases List.mem_cons.mp ha with rfl | ha
    · rw [exMapM, hf]
    · rw [exMapM]
      cases hx : f x with
      | error e => cases e; rfl
      | ok b =>
        rw [ih a ha hf]

theorem exMapM_ok_forall {α β : Type} (f : α → Except KbtError β) :
    ∀ (l : List α) (out : List β), exMapM f l = .ok out → ∀ a ∈ l, ∃ b, f a = .ok b := by
  intro l
  induction l with
  | nil => intro out _ a ha; cases ha
  | cons x xs ih =>
    intro out h a ha
    rw [exMapM] at h
    cases hx : f x with
    | error e => rw [hx] at h; cases h
    | ok b =>
      rw [hx] at h
      cases hrec : exMapM f xs with
      | error e => rw [hrec] at h; cases h
      | ok bs =>
        rcases List.mem_cons.mp ha with rfl | ha
        · exact ⟨b, hx⟩
        · exact ih bs hrec a ha

/-- C6: the CSV row encoder fails on any row whose field count
differs from the schema's column count, and every failure while
encoding aborts the entire operation immediately — if any row fails,
the whole result is a single error, and a successful result means
every row encoded, so there is no partial-success or per-row
skip-and-continue mode. -/
theorem claim_C6 :
    (∀ (schema : List Column) (rows : List (List (List Char))) (row : List (List Char)),
      row ∈ rows → row.length ≠ schema.length → parse_csv schema rows = .error .mk) ∧
    (∀ (schema : List Column) (rows : List (List (List Char))) (row : List (List Char)),
      row ∈ rows → encodeRow schema row = .error .mk → parse_csv schema rows = .error .mk) ∧
    (∀ (schema : List Column) (rows : List (List (List Char)))
      (out : List (List Data)), parse_csv schema rows = .ok out →
      ∀ row ∈ rows, ∃ ds, encodeRow schema row = .ok ds) := by
  refine ⟨?_, ?_, ?_⟩
  · intro schema rows row hmem hlen
    refine exMapM_error_of_mem _ rows row hmem ?_
    rw [encodeRow, if_neg hlen]
  · intro schema rows row hmem herr
    exact exMapM_error_of_mem _ rows row hmem herr
  · intro schema rows out h row hmem
    exact exMapM_ok_forall _ rows out h row hmem

theorem claim_C6_witness :
    parse_csv [⟨DataType.int32, false⟩] [[]] = .error .mk :=
  claim_C6.1 [⟨DataType.int32, false⟩] [[]] [] (List.mem_cons_self [] []) (by decide)

example : schemaParse "Float32 Nullable, Int32, Float32".toList =
    .ok [⟨.float32, true⟩, ⟨.int32, false⟩, ⟨.float32, false⟩] := by decide

example : schemaParse "Float32 Nullable, Int32,, Float32".toList = .err := by decide
example : schemaParse "Float33".toList = .err := by decide
example : schemaParse "Float32 nullable".toList = .err := by decide
example : schemaParse "Float32 Int32".toList = .err := by decide
example : schemaParse "Float32,".toList = .err := by decide
example : schemaParse "Float32Nullable".toList = .ok [⟨.float32, true⟩] := by decide
example : schemaParse "  Int32   Nullable".toList = .ok [⟨.int32, true⟩] := by decide
example : schemaParse "Float32   ".toList = .ok [⟨.float32, false⟩] := by decide

end Kobuta
